import Mathlib

set_option maxHeartbeats 1000000

/-!
Shallow embedding of `remove_duplicate_images` from
`notebooks/load_format_images.ipynb`.

The Python routine (the duplicate detector that the specification calls the
core of this repository) is:

```
dupes = []
hash_keys = {}
class_folders = ["no", "yes"]
for f in class_folders:
    _folder_path = image_folder / Path(f)
    for i, image in enumerate(_folder_path.glob("*")):
        if image.is_file():
            img_array = np.array(cv2.imread(str(image)), dtype=object)
            file_hash = hashlib.md5(img_array).hexdigest()
            if file_hash not in hash_keys:
                hash_keys[file_hash] = i
            else:
                dupes.append((i, f"..."))   -- the string is str(hash_keys[file_hash]) ++ ": " ++ str(image)
print(...)  -- prints len(dupes)
for si, di in dupes:
    os.remove(di.split(': ')[1])
```

Modelling decisions, each justified by the source or by documented library
semantics:

* A directory entry is a path (a list of characters), an `is_file` flag
  (`glob("*")` also yields subdirectories, which are skipped but still
  consume an `enumerate` index), and the result of `cv2.imread` on it:
  `cv2.imread` returns the decoded pixel buffer, or None when the file does
  not decode as an image -- it does not raise.  We model the imread result as
  `Option (List Nat)` stored with the entry.

* `hashlib.md5(np.array(img, dtype=object)).hexdigest()` is modelled as an
  arbitrary function `md5 : Option (List Nat) → Nat` of the imread result.
  The recorded execution of the notebook shows this call succeeding (the
  cell printed its duplicate count), so hashing is total; the md5 input is
  derived from the imread result only (the object-dtype buffer is a pointer
  buffer, and CPython interns both the small ints 0..255 that pixel values
  box to and the None singleton, so within one process the digest is a
  function of the imread result, including the None case).  Theorems are
  stated for every `md5`, so nothing depends on a particular digest.

* A category directory is `Option (List Entry)`: `none` models a missing
  directory.  `pathlib.Path.glob("*")` on a missing directory yields an
  empty iterator without raising, hence `globStar` returns `[]` for `none`.

* The Python dict `hash_keys` is an insertion-ordered association list;
  entries are only ever appended (`hash_keys[file_hash] = i` runs only when
  the key is absent).

* `di.split(': ')` is Python `str.split` with the two-character separator
  ": ": it cuts at every non-overlapping occurrence, scanning left to
  right; `[1]` is the second piece.  `splitCS` implements exactly that scan.

* `os.remove(p)` deletes the regular file at path `p`; it raises (carrying
  the offending path) when `p` is missing, is not a regular file, or the
  caller lacks permission.  `osRemove` takes a permission predicate `perm`
  and returns `none` on failure; the deletion loop aborts at the first
  failure, keeping the removals already performed, and the error value is
  the path passed to `os.remove` (which is what the raised `OSError`
  carries in its `filename`).

* The printed duplicate count is `len(dupes)` and is emitted before the
  deletion loop runs, so the run result is the triple
  (printed count, final filesystem, optional error path).
-/

structure Entry where
  path : List Char
  isFile : Bool
  pixels : Option (List Nat)
deriving DecidableEq

abbrev Dir := Option (List Entry)

abbrev FS := List Dir

/-- The separator `": "` used both to build a dupe record and to split it. -/
def sepCS : List Char := [':', ' ']

/-- `glob("*")` on a category directory: a missing directory yields nothing. -/
def globStar (d : Dir) : List Entry := d.getD []

/-- All directory entries of the scanned tree, in scan order. -/
def entriesOf (fs : FS) : List Entry := (fs.map globStar).flatten

/-- The regular files of the scanned tree, in scan order. -/
def filesOf (fs : FS) : List Entry := (entriesOf fs).filter (·.isFile)

/-- First-match lookup in an association list keyed by fingerprints
(Python `hash_keys[file_hash]` / `file_hash not in hash_keys`). -/
def lookupIdx {β : Type} : List (Nat × β) → Nat → Option β
  | [], _ => none
  | (h', v) :: rest, h => if h' = h then some v else lookupIdx rest h

/-- Decimal digit character. -/
def digitChar (d : Nat) : Char := Char.ofNat (48 + d)

/-- Fuel-driven decimal rendering (structural, so that it evaluates). -/
def natReprAux : Nat → Nat → List Char
  | 0, _ => []
  | fuel + 1, n =>
    if n < 10 then [digitChar n] else natReprAux fuel (n / 10) ++ [digitChar (n % 10)]

/-- Decimal rendering of a scan index, modelling Python `str(i)` inside the
f-string of a dupe record. -/
def natRepr (n : Nat) : List Char := natReprAux (n + 1) n

/-- One category folder of the scan loop: walks `enumerate(glob("*"))`,
hashes each regular file and either records a first-seen fingerprint or
appends a dupe record `(i, str(si) ++ ": " ++ path)`. -/
def scanEntries (md5 : Option (List Nat) → Nat) :
    List Entry → Nat → List (Nat × Nat) → List (Nat × List Char) →
    List (Nat × Nat) × List (Nat × List Char)
  | [], _, hk, dupes => (hk, dupes)
  | e :: rest, i, hk, dupes =>
    if e.isFile then
      match lookupIdx hk (md5 e.pixels) with
      | none => scanEntries md5 rest (i + 1) (hk ++ [(md5 e.pixels, i)]) dupes
      | some si =>
          scanEntries md5 rest (i + 1) hk (dupes ++ [(i, natRepr si ++ sepCS ++ e.path)])
    else scanEntries md5 rest (i + 1) hk dupes

/-- The outer loop over `class_folders`: the fingerprint index and the dupe
list are shared across folders, the `enumerate` counter restarts per folder. -/
def scanFolders (md5 : Option (List Nat) → Nat) :
    FS → List (Nat × Nat) → List (Nat × List Char) →
    List (Nat × Nat) × List (Nat × List Char)
  | [], hk, dupes => (hk, dupes)
  | d :: ds, hk, dupes =>
    let r := scanEntries md5 (globStar d) 0 hk dupes
    scanFolders md5 ds r.1 r.2

/-- Does the string start with a space? -/
def leadsSpace : List Char → Bool
  | [] => false
  | c :: _ => decide (c = ' ')

/-- Does the string contain an occurrence of the separator `": "`? -/
def hasCS : List Char → Bool
  | [] => false
  | c :: rest => (decide (c = ':') && leadsSpace rest) || hasCS rest

/-- One step per character scanner behind `splitCS`.  The flag records that
a `':'` was just read and may start a separator occurrence; `acc` holds the
(reversed) characters of the current piece. -/
def splitCSAux : List Char → Bool → List Char → List (List Char)
  | [], false, acc => [acc.reverse]
  | [], true, acc => [(':' :: acc).reverse]
  | c :: rest, false, acc =>
    if c = ':' then splitCSAux rest true acc
    else splitCSAux rest false (c :: acc)
  | c :: rest, true, acc =>
    if c = ' ' then acc.reverse :: splitCSAux rest false []
    else if c = ':' then splitCSAux rest true (':' :: acc)
    else splitCSAux rest false (c :: ':' :: acc)

/-- Python `s.split(': ')`: cut at each non-overlapping occurrence of the
two-character separator, scanning left to right. -/
def splitCS (l : List Char) (acc : List Char) : List (List Char) :=
  splitCSAux l false acc

/-- `di.split(': ')[1]`: the path recovered from a dupe record display
string (`none` models Python's IndexError when there is no second piece). -/
def recoverTarget (s : List Char) : Option (List Char) := (splitCS s []).get? 1

/-- Remove the first regular file with the given path from a directory
listing; `none` when no such file is present. -/
def removeEntries (p : List Char) : List Entry → Option (List Entry)
  | [] => none
  | e :: rest =>
    if e.isFile ∧ e.path = p then some rest
    else (removeEntries p rest).map (e :: ·)

/-- Remove the first regular file with the given path from the tree;
`none` when no such file exists anywhere (FileNotFoundError, or
IsADirectoryError when only a non-file entry has that path). -/
def removeFS (p : List Char) : FS → Option FS
  | [] => none
  | d :: ds =>
    match d with
    | none => (removeFS p ds).map (none :: ·)
    | some es =>
      match removeEntries p es with
      | some es' => some (some es' :: ds)
      | none => (removeFS p ds).map (some es :: ·)

/-- `os.remove`: fails (returning `none`) when the path is not a removable
regular file or the permission predicate denies it. -/
def osRemove (perm : List Char → Bool) (fs : FS) (p : List Char) : Option FS :=
  if perm p then removeFS p fs else none

/-- The deletion loop `for si, di in dupes: os.remove(di.split(': ')[1])`:
aborts at the first failing removal, keeping prior removals; the error
value is the path handed to `os.remove` (the path named by the raised
OSError), or the whole record string on an IndexError. -/
def deleteDupes (perm : List Char → Bool) : FS → List (Nat × List Char) → FS × Option (List Char)
  | fs, [] => (fs, none)
  | fs, (_, s) :: rest =>
    match recoverTarget s with
    | none => (fs, some s)
    | some p =>
      match osRemove perm fs p with
      | none => (fs, some p)
      | some fs' => deleteDupes perm fs' rest

/-- The whole routine: scan every category folder with a shared fingerprint
index, report `len(dupes)` (printed before any deletion), then delete.
Result: (printed duplicate count, final filesystem, error, if any). -/
def remove_duplicate_images (md5 : Option (List Nat) → Nat) (perm : List Char → Bool)
    (fs : FS) : Nat × FS × Option (List Char) :=
  let dupes := (scanFolders md5 fs [] []).2
  (dupes.length, deleteDupes perm fs dupes)

/-- Reference recursion: the files marked as duplicates, in scan order
(a file is marked exactly when its fingerprint was seen earlier). -/
def dupeList (md5 : Option (List Nat) → Nat) (seen : List Nat) : List Entry → List Entry
  | [] => []
  | e :: rest =>
    if md5 e.pixels ∈ seen then e :: dupeList md5 seen rest
    else dupeList md5 (md5 e.pixels :: seen) rest

/-- Reference recursion: the first-seen file of each distinct fingerprint,
in scan order (the survivors the deletion phase is meant to leave). -/
def keepFirsts (md5 : Option (List Nat) → Nat) (seen : List Nat) : List Entry → List Entry
  | [] => []
  | e :: rest =>
    if md5 e.pixels ∈ seen then keepFirsts md5 seen rest
    else e :: keepFirsts md5 (md5 e.pixels :: seen) rest

/-- Fingerprints seen after scanning a list of files. -/
def seenAfterL (md5 : Option (List Nat) → Nat) (seen : List Nat) : List Entry → List Nat
  | [] => seen
  | e :: rest =>
    if md5 e.pixels ∈ seen then seenAfterL md5 seen rest
    else seenAfterL md5 (md5 e.pixels :: seen) rest

/-- Modelled from the spec: the "Fingerprint Index" of spec section 3, "a
mapping from fingerprint → first-seen image path", built over the scanned
files in order.  The code's own index (`hash_keys` in `scanEntries`) stores
enumerate indices as values instead; this definition exists to be compared
with it. -/
def specIndex (md5 : Option (List Nat) → Nat) :
    List (Nat × List Char) → List Entry → List (Nat × List Char)
  | acc, [] => acc
  | acc, e :: rest =>
    match lookupIdx acc (md5 e.pixels) with
    | some _ => specIndex md5 acc rest
    | none => specIndex md5 (acc ++ [(md5 e.pixels, e.path)]) rest

/-- Path membership in a list of paths. -/
def pathIn (p : List Char) : List (List Char) → Bool
  | [] => false
  | q :: qs => if q = p then true else pathIn p qs

/-- The permission predicate of a normally writable filesystem. -/
def allowAll : List Char → Bool := fun _ => true

/-- A concrete, computable stand-in for the md5 digest used by the closed
counterexample and witness runs below.  Like the real digest it is a fixed
deterministic function of the imread result; it is injective on the handful
of concrete pixel buffers those runs use (for real md5 the corresponding
collisions are absent on those inputs as well). -/
def hashModel : Option (List Nat) → Nat
  | none => 0
  | some l => l.foldl (fun a x => a * 100 + x + 1) 1

/-- Relates a dupe record produced by the scan to the duplicate file it was
recorded for: the record's display string is some first-seen index rendered
in decimal, the separator, then the file's path. -/
def dupeRecMatches (r : Nat × List Char) (e : Entry) : Prop :=
  ∃ si, r.2 = natRepr si ++ sepCS ++ e.path

/-! ### Lemmas about decimal rendering and the `": "` split -/

lemma digitChar_ne_colon {d : Nat} (hd : d < 10) : digitChar d ≠ ':' := by
  interval_cases d <;> decide

lemma natReprAux_no_colon : ∀ fuel n, ∀ c ∈ natReprAux fuel n, c ≠ ':' := by
  intro fuel
  induction fuel with
  | zero => intro n c hc; simp [natReprAux] at hc
  | succ fuel ih =>
    intro n c hc
    by_cases h : n < 10
    · simp [natReprAux, h] at hc
      exact hc ▸ digitChar_ne_colon h
    · simp [natReprAux, h, List.mem_append] at hc
      rcases hc with hc | hc
      · exact ih _ c hc
      · exact hc ▸ digitChar_ne_colon (Nat.mod_lt _ (by norm_num))

lemma natRepr_no_colon (n : Nat) : ∀ c ∈ natRepr n, c ≠ ':' :=
  natReprAux_no_colon (n + 1) n

lemma hasCS_eq_false_of_no_colon : ∀ l : List Char, (∀ c ∈ l, c ≠ ':') → hasCS l = false := by
  intro l
  induction l with
  | nil => intro _; rfl
  | cons c rest ih =>
    intro h
    have hc : c ≠ ':' := h c (by simp)
    simp [hasCS, hc, ih fun d hd => h d (by simp [hd])]

lemma hasCS_natRepr (n : Nat) : hasCS (natRepr n) = false :=
  hasCS_eq_false_of_no_colon _ (natRepr_no_colon n)

lemma splitCSAux_no_sep :
    ∀ l : List Char, hasCS l = false →
      (∀ acc, splitCSAux l false acc = [acc.reverse ++ l]) ∧
      (leadsSpace l = false → ∀ acc, splitCSAux l true acc = [acc.reverse ++ ':' :: l]) := by
  intro l
  induction l with
  | nil =>
    intro _
    refine ⟨fun acc => by simp [splitCSAux], fun _ acc => by simp [splitCSAux]⟩
  | cons c rest ih =>
    intro h
    simp only [hasCS, Bool.or_eq_false_iff, Bool.and_eq_false_iff] at h
    obtain ⟨hhead, hrest⟩ := h
    constructor
    · intro acc
      by_cases hc : c = ':'
      · have hls : leadsSpace rest = false := by
          rcases hhead with h' | h'
          · simp [hc] at h'
          · exact h'
        subst hc
        simpa using (ih hrest).2 hls acc
      · simpa [splitCSAux, hc] using (ih hrest).1 (c :: acc)
    · intro hls0 acc
      have hcsp : c ≠ ' ' := by
        simp only [leadsSpace, decide_eq_false_iff_not] at hls0
        exact hls0
      by_cases hc : c = ':'
      · have hls : leadsSpace rest = false := by
          rcases hhead with h' | h'
          · simp [hc] at h'
          · exact h'
        subst hc
        simpa [splitCSAux, hcsp] using (ih hrest).2 hls (':' :: acc)
      · simpa [splitCSAux, hcsp, hc] using (ih hrest).1 (c :: ':' :: acc)

lemma splitCSAux_concat :
    ∀ a : List Char, hasCS a = false → ∀ b : List Char,
      (∀ acc, splitCSAux (a ++ ':' :: ' ' :: b) false acc
          = (acc.reverse ++ a) :: splitCSAux b false []) ∧
      (leadsSpace a = false → ∀ acc, splitCSAux (a ++ ':' :: ' ' :: b) true acc
          = (acc.reverse ++ ':' :: a) :: splitCSAux b false []) := by
  intro a
  induction a with
  | nil =>
    intro _ b
    refine ⟨fun acc => by simp [splitCSAux], fun _ acc => by simp [splitCSAux]⟩
  | cons c a' ih =>
    intro h b
    simp only [hasCS, Bool.or_eq_false_iff, Bool.and_eq_false_iff] at h
    obtain ⟨hhead, ha'⟩ := h
    constructor
    · intro acc
      by_cases hc : c = ':'
      · have hls : leadsSpace a' = false := by
          rcases hhead with h' | h'
          · simp [hc] at h'
          · exact h'
        subst hc
        simpa using (ih ha' b).2 hls acc
      · simpa [splitCSAux, hc] using (ih ha' b).1 (c :: acc)
    · intro hls0 acc
      have hcsp : c ≠ ' ' := by
        simp only [leadsSpace, decide_eq_false_iff_not] at hls0
        exact hls0
      by_cases hc : c = ':'
      · have hls : leadsSpace a' = false := by
          rcases hhead with h' | h'
          · simp [hc] at h'
          · exact h'
        subst hc
        simpa [splitCSAux, hcsp] using (ih ha' b).2 hls (':' :: acc)
      · simpa [splitCSAux, hcsp, hc] using (ih ha' b).1 (c :: ':' :: acc)

lemma splitCSAux_first_occ :
    ∀ l : List Char, hasCS l = true →
      (∀ acc, ∃ r t, splitCSAux l false acc = (acc.reverse ++ r) :: splitCSAux t false []
          ∧ l = r ++ ':' :: ' ' :: t ∧ hasCS r = false) ∧
      (leadsSpace l = false → ∀ acc, ∃ r t,
          splitCSAux l true acc = (acc.reverse ++ ':' :: r) :: splitCSAux t false []
          ∧ l = r ++ ':' :: ' ' :: t ∧ hasCS r = false) := by
  intro l
  induction l with
  | nil => intro h; simp [hasCS] at h
  | cons c rest ih =>
    intro h
    constructor
    · intro acc
      by_cases hc : c = ':'
      · by_cases hls : leadsSpace rest = true
        · obtain ⟨t, rfl⟩ : ∃ t, rest = ' ' :: t := by
            cases rest with
            | nil => simp [leadsSpace] at hls
            | cons d t =>
              simp only [leadsSpace, decide_eq_true_eq] at hls
              exact ⟨t, by rw [hls]⟩
          subst hc
          exact ⟨[], t, by simp [splitCSAux], by simp, rfl⟩
        · have hrest : hasCS rest = true := by
            simp only [hasCS, Bool.or_eq_true, Bool.and_eq_true] at h
            rcases h with ⟨_, h'⟩ | h'
            · exact absurd h' hls
            · exact h'
          obtain ⟨r', t, heq, hdec, hr'⟩ :=
            (ih hrest).2 (by simpa using hls) acc
          subst hc
          refine ⟨':' :: r', t, ?_, by simp [hdec], ?_⟩
          · simpa [splitCSAux] using heq
          · have hlsr' : leadsSpace r' = false := by
              cases r' with
              | nil => rfl
              | cons d r'' =>
                have h1 : rest = d :: (r'' ++ ':' :: ' ' :: t) := by simpa using hdec
                have h2 : leadsSpace rest = false := by simpa using hls
                rw [h1] at h2
                simpa [leadsSpace] using h2
            simp [hasCS, hlsr', hr']
      · have hrest : hasCS rest = true := by
          simp only [hasCS, Bool.or_eq_true, Bool.and_eq_true, decide_eq_true_eq] at h
          rcases h with ⟨h', _⟩ | h'
          · exact absurd h' hc
          · exact h'
        obtain ⟨r', t, heq, hdec, hr'⟩ := (ih hrest).1 (c :: acc)
        refine ⟨c :: r', t, ?_, by simp [hdec], by simp [hasCS, hc, hr']⟩
        rw [show splitCSAux (c :: rest) false acc = splitCSAux rest false (c :: acc) by
          simp [splitCSAux, hc]]
        rw [heq]
        simp
    · intro hls0 acc
      have hcsp : c ≠ ' ' := by
        simp only [leadsSpace, decide_eq_false_iff_not] at hls0
        exact hls0
      by_cases hc : c = ':'
      · by_cases hls : leadsSpace rest = true
        · obtain ⟨t, rfl⟩ : ∃ t, rest = ' ' :: t := by
            cases rest with
            | nil => simp [leadsSpace] at hls
            | cons d t =>
              simp only [leadsSpace, decide_eq_true_eq] at hls
              exact ⟨t, by rw [hls]⟩
          subst hc
          exact ⟨[], t, by simp [splitCSAux], by simp, rfl⟩
        · have hrest : hasCS rest = true := by
            simp only [hasCS, Bool.or_eq_true, Bool.and_eq_true] at h
            rcases h with ⟨_, h'⟩ | h'
            · exact absurd h' hls
            · exact h'
          obtain ⟨r', t, heq, hdec, hr'⟩ :=
            (ih hrest).2 (by simpa using hls) (':' :: acc)
          subst hc
          refine ⟨':' :: r', t, ?_, by simp [hdec], ?_⟩
          · rw [show splitCSAux (':' :: rest) true acc = splitCSAux rest true (':' :: acc) by
              simp [splitCSAux, hcsp]]
            rw [heq]
            simp
          · have hlsr' : leadsSpace r' = false := by
              cases r' with
              | nil => rfl
              | cons d r'' =>
                have h1 : rest = d :: (r'' ++ ':' :: ' ' :: t) := by simpa using hdec
                have h2 : leadsSpace rest = false := by simpa using hls
                rw [h1] at h2
                simpa [leadsSpace] using h2
            simp [hasCS, hlsr', hr']
      · have hrest : hasCS rest = true := by
          simp only [hasCS, Bool.or_eq_true, Bool.and_eq_true, decide_eq_true_eq] at h
          rcases h with ⟨h', _⟩ | h'
          · exact absurd h' hc
          · exact h'
        obtain ⟨r', t, heq, hdec, hr'⟩ := (ih hrest).1 (c :: ':' :: acc)
        refine ⟨c :: r', t, ?_, by simp [hdec], by simp [hasCS, hc, hr']⟩
        rw [show splitCSAux (c :: rest) true acc = splitCSAux rest false (c :: ':' :: acc) by
          simp [splitCSAux, hcsp, hc]]
        rw [heq]
        simp

lemma recoverTarget_display (si : Nat) (path : List Char) :
    (hasCS path = false → recoverTarget (natRepr si ++ sepCS ++ path) = some path) ∧
    (hasCS path = true → ∃ r t, recoverTarget (natRepr si ++ sepCS ++ path) = some r ∧
        path = r ++ ':' :: ' ' :: t ∧ r ≠ path) := by
  have hsep : natRepr si ++ sepCS ++ path = natRepr si ++ ':' :: ' ' :: path := by
    simp [sepCS]
  have hsplit : splitCS (natRepr si ++ sepCS ++ path) []
      = natRepr si :: splitCSAux path false [] := by
    rw [hsep]
    simpa [splitCS] using
      (splitCSAux_concat (natRepr si) (hasCS_natRepr si) path).1 []
  constructor
  · intro hno
    have h1 := (splitCSAux_no_sep path hno).1 []
    unfold recoverTarget
    rw [hsplit, h1]
    rfl
  · intro hyes
    obtain ⟨r, t, heq, hdec, hr⟩ := (splitCSAux_first_occ path hyes).1 []
    refine ⟨r, t, ?_, hdec, ?_⟩
    · unfold recoverTarget
      rw [hsplit, heq]
      simp
    · intro hcontra
      have hlen := congrArg List.length hdec
      rw [← hcontra] at hlen
      simp at hlen

/-! ### Lemmas about the scan phase -/

lemma lookupIdx_eq_none_iff {β : Type} : ∀ (hk : List (Nat × β)) (h : Nat),
    lookupIdx hk h = none ↔ h ∉ hk.map Prod.fst := by
  intro hk h
  induction hk with
  | nil => simp [lookupIdx]
  | cons p rest ih =>
    obtain ⟨h', v⟩ := p
    by_cases hh : h' = h
    · subst hh
      simp [lookupIdx]
    · simp [lookupIdx, hh, ih, Ne.symm hh]

lemma dupeList_congr (md5 : Option (List Nat) → Nat) :
    ∀ (es : List Entry) (s₁ s₂ : List Nat), (∀ x, x ∈ s₁ ↔ x ∈ s₂) →
      dupeList md5 s₁ es = dupeList md5 s₂ es := by
  intro es
  induction es with
  | nil => intro _ _ _; rfl
  | cons e rest ih =>
    intro s₁ s₂ hset
    by_cases hm : md5 e.pixels ∈ s₁
    · simp [dupeList, hm, (hset _).mp hm, ih s₁ s₂ hset]
    · have hm₂ : md5 e.pixels ∉ s₂ := fun h => hm ((hset _).mpr h)
      simp only [dupeList, hm, hm₂, if_neg]
      exact ih _ _ fun x => by simp [hset x]

lemma seenAfterL_mem_congr (md5 : Option (List Nat) → Nat) :
    ∀ (es : List Entry) (s₁ s₂ : List Nat), (∀ x, x ∈ s₁ ↔ x ∈ s₂) →
      ∀ h, h ∈ seenAfterL md5 s₁ es ↔ h ∈ seenAfterL md5 s₂ es := by
  intro es
  induction es with
  | nil => intro _ _ hset h; simpa [seenAfterL] using hset h
  | cons e rest ih =>
    intro s₁ s₂ hset h
    by_cases hm : md5 e.pixels ∈ s₁
    · simp only [seenAfterL, hm, (hset _).mp hm, if_pos]
      exact ih s₁ s₂ hset h
    · have hm₂ : md5 e.pixels ∉ s₂ := fun h' => hm ((hset _).mpr h')
      simp only [seenAfterL, hm, hm₂, if_neg]
      exact ih _ _ (fun x => by simp [hset x]) h

lemma dupeList_append (md5 : Option (List Nat) → Nat) :
    ∀ (a b : List Entry) (seen : List Nat),
      dupeList md5 seen (a ++ b)
        = dupeList md5 seen a ++ dupeList md5 (seenAfterL md5 seen a) b := by
  intro a
  induction a with
  | nil => intro b seen; simp [dupeList, seenAfterL]
  | cons e rest ih =>
    intro b seen
    by_cases hm : md5 e.pixels ∈ seen
    · simp [dupeList, seenAfterL, hm, ih]
    · simp [dupeList, seenAfterL, hm, ih]

lemma seenAfterL_append (md5 : Option (List Nat) → Nat) :
    ∀ (a b : List Entry) (seen : List Nat),
      seenAfterL md5 seen (a ++ b) = seenAfterL md5 (seenAfterL md5 seen a) b := by
  intro a
  induction a with
  | nil => intro b seen; simp [seenAfterL]
  | cons e rest ih =>
    intro b seen
    by_cases hm : md5 e.pixels ∈ seen
    · simp [seenAfterL, hm, ih]
    · simp [seenAfterL, hm, ih]

lemma scanEntries_bridge (md5 : Option (List Nat) → Nat) :
    ∀ (es : List Entry) (i : Nat) (hk : List (Nat × Nat)) (d : List (Nat × List Char)),
      ∃ Δh Δd,
        scanEntries md5 es i hk d = (hk ++ Δh, d ++ Δd) ∧
        List.Forall₂ dupeRecMatches Δd
          (dupeList md5 (hk.map Prod.fst) (es.filter (·.isFile))) ∧
        (∀ h, h ∈ (hk ++ Δh).map Prod.fst
            ↔ h ∈ seenAfterL md5 (hk.map Prod.fst) (es.filter (·.isFile))) := by
  intro es
  induction es with
  | nil =>
    intro i hk d
    exact ⟨[], [], by simp [scanEntries], by simp [dupeList], fun h => by simp [seenAfterL]⟩
  | cons e rest ih =>
    intro i hk d
    by_cases he : e.isFile
    · cases hl : lookupIdx hk (md5 e.pixels) with
      | none =>
        have hnotmem : md5 e.pixels ∉ hk.map Prod.fst := (lookupIdx_eq_none_iff hk _).mp hl
        obtain ⟨Δh, Δd, heq, hforall, hkeys⟩ := ih (i + 1) (hk ++ [(md5 e.pixels, i)]) d
        refine ⟨(md5 e.pixels, i) :: Δh, Δd, ?_, ?_, ?_⟩
        · rw [show scanEntries md5 (e :: rest) i hk d
              = scanEntries md5 rest (i + 1) (hk ++ [(md5 e.pixels, i)]) d by
            simp [scanEntries, he, hl]]
          rw [heq]
          simp
        · have hfilter : (e :: rest).filter (·.isFile) = e :: rest.filter (·.isFile) := by
            simp [List.filter_cons, he]
          rw [hfilter]
          rw [show dupeList md5 (hk.map Prod.fst) (e :: rest.filter (·.isFile))
              = dupeList md5 (md5 e.pixels :: hk.map Prod.fst) (rest.filter (·.isFile)) by
            simp [dupeList, hnotmem]]
          have hcongr := dupeList_congr md5 (rest.filter (·.isFile))
            ((hk ++ [(md5 e.pixels, i)]).map Prod.fst) (md5 e.pixels :: hk.map Prod.fst)
            (fun x => by simp [or_comm])
          rw [← hcongr]
          exact hforall
        · intro h
          have hfilter : (e :: rest).filter (·.isFile) = e :: rest.filter (·.isFile) := by
            simp [List.filter_cons, he]
          rw [hfilter]
          rw [show seenAfterL md5 (hk.map Prod.fst) (e :: rest.filter (·.isFile))
              = seenAfterL md5 (md5 e.pixels :: hk.map Prod.fst) (rest.filter (·.isFile)) by
            simp [seenAfterL, hnotmem]]
          have h1 : (hk ++ (md5 e.pixels, i) :: Δh) = (hk ++ [(md5 e.pixels, i)]) ++ Δh := by
            simp
          rw [h1]
          rw [hkeys h]
          exact seenAfterL_mem_congr md5 (rest.filter (·.isFile)) _ _
            (fun x => by simp [or_comm]) h
      | some si =>
        have hmem : md5 e.pixels ∈ hk.map Prod.fst := by
          by_contra hcontra
          rw [(lookupIdx_eq_none_iff hk _).mpr hcontra] at hl
          exact Option.noConfusion hl
        obtain ⟨Δh, Δd, heq, hforall, hkeys⟩ :=
          ih (i + 1) hk (d ++ [(i, natRepr si ++ sepCS ++ e.path)])
        refine ⟨Δh, (i, natRepr si ++ sepCS ++ e.path) :: Δd, ?_, ?_, ?_⟩
        · rw [show scanEntries md5 (e :: rest) i hk d
              = scanEntries md5 rest (i + 1) hk (d ++ [(i, natRepr si ++ sepCS ++ e.path)]) by
            simp [scanEntries, he, hl]]
          rw [heq]
          simp
        · have hfilter : (e :: rest).filter (·.isFile) = e :: rest.filter (·.isFile) := by
            simp [List.filter_cons, he]
          rw [hfilter]
          rw [show dupeList md5 (hk.map Prod.fst) (e :: rest.filter (·.isFile))
              = e :: dupeList md5 (hk.map Prod.fst) (rest.filter (·.isFile)) by
            simp [dupeList, hmem]]
          exact List.Forall₂.cons ⟨si, rfl⟩ hforall
        · intro h
          have hfilter : (e :: rest).filter (·.isFile) = e :: rest.filter (·.isFile) := by
            simp [List.filter_cons, he]
          rw [hfilter]
          rw [show seenAfterL md5 (hk.map Prod.fst) (e :: rest.filter (·.isFile))
              = seenAfterL md5 (hk.map Prod.fst) (rest.filter (·.isFile)) by
            simp [seenAfterL, hmem]]
          exact hkeys h
    · obtain ⟨Δh, Δd, heq, hforall, hkeys⟩ := ih (i + 1) hk d
      refine ⟨Δh, Δd, ?_, ?_, ?_⟩
      · rw [show scanEntries md5 (e :: rest) i hk d = scanEntries md5 rest (i + 1) hk d by
          simp [scanEntries, he]]
        exact heq
      · have hfilter : (e :: rest).filter (·.isFile) = rest.filter (·.isFile) := by
          simp [List.filter_cons, he]
        rw [hfilter]
        exact hforall
      · have hfilter : (e :: rest).filter (·.isFile) = rest.filter (·.isFile) := by
          simp [List.filter_cons, he]
        rw [hfilter]
        exact hkeys

lemma entriesOf_cons (d : Dir) (ds : FS) : entriesOf (d :: ds) = globStar d ++ entriesOf ds := by
  simp [entriesOf]

lemma filesOf_cons (d : Dir) (ds : FS) :
    filesOf (d :: ds) = (globStar d).filter (·.isFile) ++ filesOf ds := by
  simp [filesOf, entriesOf_cons, List.filter_append]

lemma forall₂_append_of {α β : Type} {R : α → β → Prop} :
    ∀ {a₁ a₂ : List α} {b₁ b₂ : List β},
      List.Forall₂ R a₁ b₁ → List.Forall₂ R a₂ b₂ → List.Forall₂ R (a₁ ++ a₂) (b₁ ++ b₂) := by
  intro a₁ a₂ b₁ b₂ h₁ h₂
  induction h₁ with
  | nil => exact h₂
  | cons hr _ ih => exact List.Forall₂.cons hr ih

lemma forall₂_mem_right {α β : Type} {R : α → β → Prop} :
    ∀ {xs : List α} {ys : List β} {y : β},
      List.Forall₂ R xs ys → y ∈ ys → ∃ x ∈ xs, R x y := by
  intro xs ys y hF
  induction hF with
  | nil => intro h; simp at h
  | cons hr htail ih =>
    intro hy
    rcases List.mem_cons.mp hy with hy | hy
    · exact ⟨_, by simp, hy ▸ hr⟩
    · obtain ⟨x, hx, hRx⟩ := ih hy
      exact ⟨x, by simp [hx], hRx⟩

lemma scanFolders_bridge (md5 : Option (List Nat) → Nat) :
    ∀ (ds : FS) (hk : List (Nat × Nat)) (d : List (Nat × List Char)),
      ∃ Δh Δd,
        scanFolders md5 ds hk d = (hk ++ Δh, d ++ Δd) ∧
        List.Forall₂ dupeRecMatches Δd (dupeList md5 (hk.map Prod.fst) (filesOf ds)) ∧
        (∀ h, h ∈ (hk ++ Δh).map Prod.fst
            ↔ h ∈ seenAfterL md5 (hk.map Prod.fst) (filesOf ds)) := by
  intro ds
  induction ds with
  | nil =>
    intro hk d
    refine ⟨[], [], by simp [scanFolders], ?_, fun h => by simp [seenAfterL, filesOf, entriesOf]⟩
    simp [filesOf, entriesOf, dupeList]
  | cons dir ds ih =>
    intro hk d
    obtain ⟨Δh₁, Δd₁, heq₁, hforall₁, hkeys₁⟩ := scanEntries_bridge md5 (globStar dir) 0 hk d
    obtain ⟨Δh₂, Δd₂, heq₂, hforall₂, hkeys₂⟩ := ih (hk ++ Δh₁) (d ++ Δd₁)
    refine ⟨Δh₁ ++ Δh₂, Δd₁ ++ Δd₂, ?_, ?_, ?_⟩
    · rw [show scanFolders md5 (dir :: ds) hk d
          = scanFolders md5 ds (scanEntries md5 (globStar dir) 0 hk d).1
              (scanEntries md5 (globStar dir) 0 hk d).2 from rfl]
      rw [heq₁]
      simpa [List.append_assoc] using heq₂
    · rw [filesOf_cons, dupeList_append]
      refine forall₂_append_of hforall₁ ?_
      have hcongr := dupeList_congr md5 (filesOf ds)
        ((hk ++ Δh₁).map Prod.fst)
        (seenAfterL md5 (hk.map Prod.fst) ((globStar dir).filter (·.isFile)))
        hkeys₁
      rw [← hcongr]
      exact hforall₂
    · intro h
      rw [filesOf_cons, seenAfterL_append]
      have h1 : hk ++ (Δh₁ ++ Δh₂) = (hk ++ Δh₁) ++ Δh₂ := by simp
      rw [h1, hkeys₂ h]
      exact seenAfterL_mem_congr md5 (filesOf ds) _ _ hkeys₁ h

lemma dupeList_sublist (md5 : Option (List Nat) → Nat) :
    ∀ (es : List Entry) (seen : List Nat), List.Sublist (dupeList md5 seen es) es := by
  intro es
  induction es with
  | nil => intro seen; simp [dupeList]
  | cons e rest ih =>
    intro seen
    by_cases hm : md5 e.pixels ∈ seen
    · simpa [dupeList, hm] using (ih seen).cons₂ e
    · simpa [dupeList, hm] using (ih (md5 e.pixels :: seen)).cons e

lemma keepFirsts_sublist (md5 : Option (List Nat) → Nat) :
    ∀ (es : List Entry) (seen : List Nat), List.Sublist (keepFirsts md5 seen es) es := by
  intro es
  induction es with
  | nil => intro seen; simp [keepFirsts]
  | cons e rest ih =>
    intro seen
    by_cases hm : md5 e.pixels ∈ seen
    · simpa [keepFirsts, hm] using (ih seen).cons e
    · simpa [keepFirsts, hm] using (ih (md5 e.pixels :: seen)).cons₂ e

lemma keepFirsts_fresh_pairwise (md5 : Option (List Nat) → Nat) :
    ∀ (es : List Entry) (seen : List Nat),
      (keepFirsts md5 seen es).Pairwise (fun a b => md5 a.pixels ≠ md5 b.pixels) ∧
      ∀ e ∈ keepFirsts md5 seen es, md5 e.pixels ∉ seen := by
  intro es
  induction es with
  | nil => intro seen; simp [keepFirsts]
  | cons e rest ih =>
    intro seen
    by_cases hm : md5 e.pixels ∈ seen
    · simpa [keepFirsts, hm] using ih seen
    · obtain ⟨hpair, hfresh⟩ := ih (md5 e.pixels :: seen)
      refine ⟨?_, ?_⟩
      · simp only [keepFirsts, hm, if_neg]
        refine List.Pairwise.cons ?_ hpair
        intro b hb heq
        exact hfresh b hb (heq ▸ List.mem_cons_self _ _)
      · simp only [keepFirsts, hm, if_neg]
        intro x hx
        rcases List.mem_cons.mp hx with hx | hx
        · exact hx ▸ hm
        · exact fun hc => hfresh x hx (List.mem_cons_of_mem _ hc)

lemma dupeList_eq_nil (md5 : Option (List Nat) → Nat) :
    ∀ (es : List Entry) (seen : List Nat),
      es.Pairwise (fun a b => md5 a.pixels ≠ md5 b.pixels) →
      (∀ e ∈ es, md5 e.pixels ∉ seen) →
      dupeList md5 seen es = [] := by
  intro es
  induction es with
  | nil => intro seen _ _; rfl
  | cons e rest ih =>
    intro seen hpair hfresh
    have hm : md5 e.pixels ∉ seen := hfresh e (by simp)
    simp only [dupeList, hm, if_neg]
    refine ih _ (List.Pairwise.of_cons hpair) ?_
    intro x hx
    simp only [List.mem_cons]
    push_neg
    refine ⟨?_, hfresh x (by simp [hx])⟩
    exact fun hc => (List.pairwise_cons.mp hpair).1 x hx hc.symm

lemma pathIn_iff (p : List Char) : ∀ ps : List (List Char), pathIn p ps = true ↔ p ∈ ps := by
  intro ps
  induction ps with
  | nil => simp [pathIn]
  | cons q qs ih =>
    by_cases hq : q = p
    · subst hq; simp [pathIn]
    · simp [pathIn, hq, ih, Ne.symm hq]

lemma mem_dupeList_of_earlier (md5 : Option (List Nat) → Nat) :
    ∀ (pre : List Entry) (e : Entry) (post : List Entry) (seen : List Nat),
      ((∃ e1 ∈ pre, md5 e1.pixels = md5 e.pixels) ∨ md5 e.pixels ∈ seen) →
      e ∈ dupeList md5 seen (pre ++ e :: post) := by
  intro pre
  induction pre with
  | nil =>
    intro e post seen hseen
    rcases hseen with ⟨e1, he1, _⟩ | hseen
    · simp at he1
    · simp [dupeList, hseen]
  | cons f pre' ih =>
    intro e post seen hseen
    by_cases hm : md5 f.pixels ∈ seen
    · simp only [List.cons_append, dupeList, hm, if_pos]
      refine List.mem_cons_of_mem _ (ih e post seen ?_)
      rcases hseen with ⟨e1, he1, hhash⟩ | hseen
      · rcases List.mem_cons.mp he1 with he1 | he1
        · exact Or.inr (by rw [← hhash, he1]; exact hm)
        · exact Or.inl ⟨e1, he1, hhash⟩
      · exact Or.inr hseen
    · simp only [List.cons_append, dupeList, hm, if_neg]
      refine ih e post (md5 f.pixels :: seen) ?_
      rcases hseen with ⟨e1, he1, hhash⟩ | hseen
      · rcases List.mem_cons.mp he1 with he1 | he1
        · exact Or.inr (by rw [← hhash, he1]; simp)
        · exact Or.inl ⟨e1, he1, hhash⟩
      · exact Or.inr (by simp [hseen])

lemma keepFirsts_eq_filter (md5 : Option (List Nat) → Nat) :
    ∀ (es : List Entry) (seen : List Nat), (es.map Entry.path).Nodup →
      es.filter (fun e => !(pathIn e.path ((dupeList md5 seen es).map Entry.path)))
        = keepFirsts md5 seen es := by
  intro es
  induction es with
  | nil => intro seen _; rfl
  | cons e rest ih =>
    intro seen hnd
    have hnd' : (rest.map Entry.path).Nodup := (List.nodup_cons.mp (by simpa using hnd)).2
    have hepath : e.path ∉ rest.map Entry.path := (List.nodup_cons.mp (by simpa using hnd)).1
    by_cases hm : md5 e.pixels ∈ seen
    · have hd : dupeList md5 seen (e :: rest) = e :: dupeList md5 seen rest := by
        simp [dupeList, hm]
      have hk : keepFirsts md5 seen (e :: rest) = keepFirsts md5 seen rest := by
        simp [keepFirsts, hm]
      rw [hd, hk]
      have hdrop : pathIn e.path ((e :: dupeList md5 seen rest).map Entry.path) = true := by
        simp [pathIn_iff]
      rw [List.filter_cons]
      simp only [hdrop, Bool.not_true]
      rw [if_neg (by simp)]
      rw [← ih seen hnd']
      apply List.filter_congr
      intro x hx
      have hxpath : x.path ≠ e.path := by
        intro hc
        exact hepath (hc ▸ List.mem_map_of_mem Entry.path hx)
      have : pathIn x.path ((e :: dupeList md5 seen rest).map Entry.path)
          = pathIn x.path ((dupeList md5 seen rest).map Entry.path) := by
        simp only [List.map_cons, pathIn]
        rw [if_neg (by exact fun hc => hxpath hc.symm)]
      rw [this]
    · have hd : dupeList md5 seen (e :: rest) = dupeList md5 (md5 e.pixels :: seen) rest := by
        simp [dupeList, hm]
      have hk : keepFirsts md5 seen (e :: rest)
          = e :: keepFirsts md5 (md5 e.pixels :: seen) rest := by
        simp [keepFirsts, hm]
      rw [hd, hk]
      have hkeep : pathIn e.path ((dupeList md5 (md5 e.pixels :: seen) rest).map Entry.path)
          = false := by
        rw [← Bool.not_eq_true, pathIn_iff]
        intro hc
        obtain ⟨x, hx, hxe⟩ := List.mem_map.mp hc
        have : x ∈ rest := (dupeList_sublist md5 rest _).mem hx
        exact hepath (hxe ▸ List.mem_map_of_mem Entry.path this)
      rw [List.filter_cons]
      simp only [hkeep, Bool.not_false]
      rw [if_pos (by simp)]
      rw [ih (md5 e.pixels :: seen) hnd']

/-! ### Lemmas about the deletion phase -/

lemma removeEntries_append (p : List Char) :
    ∀ a b : List Entry,
      removeEntries p (a ++ b)
        = match removeEntries p a with
          | some a' => some (a' ++ b)
          | none => (removeEntries p b).map (a ++ ·) := by
  intro a
  induction a with
  | nil =>
    intro b
    cases hr : removeEntries p b <;> simp [removeEntries, hr]
  | cons e rest ih =>
    intro b
    by_cases hc : e.isFile ∧ e.path = p
    · simp [removeEntries, hc]
    · have h1 : removeEntries p (e :: (rest ++ b))
          = (removeEntries p (rest ++ b)).map (e :: ·) := by
        simp [removeEntries, hc]
      have h2 : removeEntries p (e :: rest) = (removeEntries p rest).map (e :: ·) := by
        simp [removeEntries, hc]
      rw [List.cons_append, h1, ih b, h2]
      cases hr : removeEntries p rest with
      | some a' => simp
      | none => cases hb : removeEntries p b <;> simp [Option.map_map, Function.comp]

lemma removeFS_entries (p : List Char) :
    ∀ fs : FS, (removeFS p fs).map entriesOf = removeEntries p (entriesOf fs) := by
  intro fs
  induction fs with
  | nil => simp [removeFS, entriesOf, removeEntries]
  | cons d ds ih =>
    cases d with
    | none =>
      have h1 : entriesOf ((none : Dir) :: ds) = entriesOf ds := by
        simp [entriesOf_cons, globStar]
      rw [h1, ← ih]
      simp only [removeFS]
      cases removeFS p ds <;> simp [entriesOf_cons, globStar]
    | some es =>
      have h1 : entriesOf (some es :: ds) = es ++ entriesOf ds := by
        simp [entriesOf_cons, globStar]
      rw [h1, removeEntries_append]
      cases hre : removeEntries p es with
      | some es' =>
        simp [removeFS, hre, entriesOf_cons, globStar]
      | none =>
        simp only [removeFS, hre]
        rw [← ih]
        cases removeFS p ds <;> simp [entriesOf_cons, globStar]

lemma removeEntries_eq_filter (p : List Char) :
    ∀ es : List Entry, (es.map Entry.path).Nodup →
      (∃ e ∈ es, e.isFile = true ∧ e.path = p) →
      removeEntries p es
        = some (es.filter (fun x => !(x.isFile && decide (x.path = p)))) := by
  intro es
  induction es with
  | nil => intro _ h; simp at h
  | cons e rest ih =>
    intro hnd hex
    have hnd' : (rest.map Entry.path).Nodup := (List.nodup_cons.mp (by simpa using hnd)).2
    have hepath : e.path ∉ rest.map Entry.path := (List.nodup_cons.mp (by simpa using hnd)).1
    by_cases hc : e.isFile ∧ e.path = p
    · rw [show removeEntries p (e :: rest) = some rest by simp [removeEntries, hc]]
      rw [List.filter_cons]
      rw [if_neg (by simp [hc.1, hc.2])]
      have : rest.filter (fun x => !(x.isFile && decide (x.path = p))) = rest := by
        apply List.filter_eq_self.mpr
        intro x hx
        have : x.path ≠ p := by
          intro hxp
          exact hepath (by rw [hc.2, ← hxp]; exact List.mem_map_of_mem Entry.path hx)
        simp [this]
      rw [this]
    · have hex' : ∃ x ∈ rest, x.isFile = true ∧ x.path = p := by
        rcases hex with ⟨x, hx, hxf, hxp⟩
        rcases List.mem_cons.mp hx with rfl | hx
        · exact absurd ⟨hxf, hxp⟩ hc
        · exact ⟨x, hx, hxf, hxp⟩
      rw [show removeEntries p (e :: rest) = (removeEntries p rest).map (e :: ·) by
        simp [removeEntries, hc]]
      rw [ih hnd' hex']
      rw [List.filter_cons]
      rw [if_pos]
      · simp
      · rcases Decidable.em (e.isFile = true) with hf | hf
        · have : e.path ≠ p := fun hp => hc ⟨hf, hp⟩
          simp [this]
        · simp [Bool.eq_false_iff.mpr hf]

lemma deleteDupes_append (perm : List Char → Bool) :
    ∀ (a b : List (Nat × List Char)) (fs : FS),
      deleteDupes perm fs (a ++ b)
        = match deleteDupes perm fs a with
          | (fs₁, none) => deleteDupes perm fs₁ b
          | (fs₁, some err) => (fs₁, some err) := by
  intro a
  induction a with
  | nil => intro b fs; rfl
  | cons r rest ih =>
    intro b fs
    obtain ⟨k, s⟩ := r
    cases ht : recoverTarget s with
    | none => simp [deleteDupes, ht]
    | some p =>
      cases ho : osRemove perm fs p with
      | none => simp [deleteDupes, ht, ho]
      | some fs' => simp [deleteDupes, ht, ho, ih b fs']

lemma deleteDupes_ok :
    ∀ {recs : List (Nat × List Char)} {del : List Entry} (fs : FS),
      List.Forall₂ dupeRecMatches recs del →
      (∀ e ∈ del, hasCS e.path = false) →
      ((entriesOf fs).map Entry.path).Nodup →
      (∀ e ∈ del, ∃ x ∈ entriesOf fs, x.isFile = true ∧ x.path = e.path) →
      (del.map Entry.path).Nodup →
      ∃ fs', deleteDupes allowAll fs recs = (fs', none) ∧
        entriesOf fs'
          = (entriesOf fs).filter
              (fun x => !(x.isFile && pathIn x.path (del.map Entry.path))) := by
  intro recs del fs hF
  induction hF generalizing fs with
  | nil =>
    intro _ _ _ _
    refine ⟨fs, rfl, ?_⟩
    rw [List.filter_eq_self.mpr]
    intro x _
    simp [pathIn]
  | @cons r e recs' del' hR htail ih =>
    intro hcs hnd hpresent hdelnd
    obtain ⟨si, hs⟩ := hR
    have hrec : recoverTarget r.2 = some e.path := by
      rw [hs]
      exact (recoverTarget_display si e.path).1 (hcs e (by simp))
    obtain ⟨x, hx, hxf, hxp⟩ := hpresent e (by simp)
    have hremove : removeEntries e.path (entriesOf fs)
        = some ((entriesOf fs).filter (fun x => !(x.isFile && decide (x.path = e.path)))) :=
      removeEntries_eq_filter e.path (entriesOf fs) hnd ⟨x, hx, hxf, hxp⟩
    obtain ⟨fs₁, hfs₁, hent₁⟩ : ∃ fs₁, removeFS e.path fs = some fs₁ ∧
        entriesOf fs₁
          = (entriesOf fs).filter (fun x => !(x.isFile && decide (x.path = e.path))) := by
      have := removeFS_entries e.path fs
      rw [hremove] at this
      cases hrf : removeFS e.path fs with
      | none => rw [hrf] at this; simp at this
      | some fs₁ =>
        rw [hrf] at this
        exact ⟨fs₁, rfl, by simpa using this⟩
    have hepath_notin : e.path ∉ del'.map Entry.path :=
      (List.nodup_cons.mp (by simpa using hdelnd)).1
    have hnd₁ : ((entriesOf fs₁).map Entry.path).Nodup := by
      rw [hent₁]
      exact List.Nodup.sublist (List.Sublist.map Entry.path (List.filter_sublist _)) hnd
    have hpresent₁ : ∀ e' ∈ del', ∃ y ∈ entriesOf fs₁, y.isFile = true ∧ y.path = e'.path := by
      intro e' he'
      obtain ⟨y, hy, hyf, hyp⟩ := hpresent e' (by simp [he'])
      refine ⟨y, ?_, hyf, hyp⟩
      rw [hent₁]
      rw [List.mem_filter]
      refine ⟨hy, ?_⟩
      have : y.path ≠ e.path := by
        rw [hyp]
        intro hc
        exact hepath_notin (hc ▸ List.mem_map_of_mem Entry.path he')
      simp [this]
    obtain ⟨fs₂, hdel₂, hent₂⟩ := ih fs₁ (fun e' he' => hcs e' (by simp [he'])) hnd₁ hpresent₁
      (List.nodup_cons.mp (by simpa using hdelnd)).2
    refine ⟨fs₂, ?_, ?_⟩
    · have ho : osRemove allowAll fs e.path = some fs₁ := by
        simp [osRemove, allowAll, hfs₁]
      have hstep : deleteDupes allowAll fs (r :: recs') = deleteDupes allowAll fs₁ recs' := by
        obtain ⟨k, s⟩ := r
        simp only [deleteDupes, hrec, ho]
      rw [hstep]
      exact hdel₂
    · rw [hent₂, hent₁, List.filter_filter]
      apply List.filter_congr
      intro y _
      by_cases hyf : y.isFile = true
      · by_cases hyp : y.path = e.path
        · simp [hyf, hyp, pathIn]
        · have hcons : pathIn y.path (e.path :: del'.map Entry.path)
              = pathIn y.path (del'.map Entry.path) := by
            simp only [pathIn]
            rw [if_neg (fun hc => hyp hc.symm)]
          simp [hyf, hyp, List.map_cons, hcons]
      · have hyf' : y.isFile = false := Bool.eq_false_iff.mpr hyf
        simp [hyf']

lemma run_ok (md5 : Option (List Nat) → Nat) (fs : FS)
    (hnd : ((entriesOf fs).map Entry.path).Nodup)
    (hns : ∀ e ∈ filesOf fs, hasCS e.path = false) :
    ∃ fs', remove_duplicate_images md5 allowAll fs
        = ((dupeList md5 [] (filesOf fs)).length, fs', none)
      ∧ entriesOf fs'
          = (entriesOf fs).filter
              (fun x => !(x.isFile && pathIn x.path
                ((dupeList md5 [] (filesOf fs)).map Entry.path)))
      ∧ filesOf fs' = keepFirsts md5 [] (filesOf fs) := by
  obtain ⟨Δh, Δd, heq, hforall, _⟩ := scanFolders_bridge md5 fs [] []
  have hdupes : (scanFolders md5 fs [] []).2 = Δd := by rw [heq]; simp
  have hforall' : List.Forall₂ dupeRecMatches Δd (dupeList md5 [] (filesOf fs)) := by
    simpa using hforall
  have hfilesnd : ((filesOf fs).map Entry.path).Nodup :=
    List.Nodup.sublist (List.Sublist.map Entry.path (List.filter_sublist _)) hnd
  have hdelsub : List.Sublist (dupeList md5 [] (filesOf fs)) (filesOf fs) :=
    dupeList_sublist md5 (filesOf fs) []
  obtain ⟨fs', hdel, hent⟩ := deleteDupes_ok fs hforall'
    (fun e he => hns e (hdelsub.mem he))
    hnd
    (fun e he => ⟨e, (List.mem_filter.mp (hdelsub.mem he)).1,
      (List.mem_filter.mp (hdelsub.mem he)).2, rfl⟩)
    (List.Nodup.sublist (List.Sublist.map Entry.path hdelsub) hfilesnd)
  have hfiles' : filesOf fs' = keepFirsts md5 [] (filesOf fs) := by
    rw [← keepFirsts_eq_filter md5 (filesOf fs) [] hfilesnd]
    set delP := (dupeList md5 [] (filesOf fs)).map Entry.path with hdelP
    show (entriesOf fs').filter (·.isFile)
        = ((entriesOf fs).filter (·.isFile)).filter (fun e => !(pathIn e.path delP))
    rw [hent, List.filter_filter, List.filter_filter]
    apply List.filter_congr
    intro a _
    cases hf : a.isFile <;> cases hp : pathIn a.path delP <;> simp [hf, hp]
  refine ⟨fs', ?_, hent, hfiles'⟩
  simp only [remove_duplicate_images, hdupes]
  rw [hdel, hforall'.length_eq]

/-! ### Lemmas about the fingerprint index `hash_keys` -/

lemma scanEntries_keys_nodup (md5 : Option (List Nat) → Nat) :
    ∀ (es : List Entry) (i : Nat) (hk : List (Nat × Nat)) (d : List (Nat × List Char)),
      (hk.map Prod.fst).Nodup → ((scanEntries md5 es i hk d).1.map Prod.fst).Nodup := by
  intro es
  induction es with
  | nil => intro i hk d h; simpa [scanEntries] using h
  | cons e rest ih =>
    intro i hk d hnd
    by_cases he : e.isFile
    · cases hl : lookupIdx hk (md5 e.pixels) with
      | none =>
        rw [show scanEntries md5 (e :: rest) i hk d
            = scanEntries md5 rest (i + 1) (hk ++ [(md5 e.pixels, i)]) d by
          simp [scanEntries, he, hl]]
        refine ih (i + 1) _ d ?_
        rw [List.map_append]
        refine List.Nodup.append hnd (by simp) ?_
        intro x hx hx'
        simp only [List.map_cons, List.map_nil, List.mem_singleton] at hx'
        exact (lookupIdx_eq_none_iff hk _).mp hl (hx' ▸ hx)
      | some si =>
        rw [show scanEntries md5 (e :: rest) i hk d
            = scanEntries md5 rest (i + 1) hk (d ++ [(i, natRepr si ++ sepCS ++ e.path)]) by
          simp [scanEntries, he, hl]]
        exact ih (i + 1) hk _ hnd
    · rw [show scanEntries md5 (e :: rest) i hk d = scanEntries md5 rest (i + 1) hk d by
        simp [scanEntries, he]]
      exact ih (i + 1) hk d hnd

lemma scanFolders_keys_nodup (md5 : Option (List Nat) → Nat) :
    ∀ (ds : FS) (hk : List (Nat × Nat)) (d : List (Nat × List Char)),
      (hk.map Prod.fst).Nodup → ((scanFolders md5 ds hk d).1.map Prod.fst).Nodup := by
  intro ds
  induction ds with
  | nil => intro hk d h; simpa [scanFolders] using h
  | cons dir ds ih =>
    intro hk d hnd
    exact ih _ _ (scanEntries_keys_nodup md5 (globStar dir) 0 hk d hnd)

lemma seenAfterL_mono (md5 : Option (List Nat) → Nat) :
    ∀ (es : List Entry) (seen : List Nat) (x : Nat),
      x ∈ seen → x ∈ seenAfterL md5 seen es := by
  intro es
  induction es with
  | nil => intro seen x hx; simpa [seenAfterL] using hx
  | cons e rest ih =>
    intro seen x hx
    by_cases hm : md5 e.pixels ∈ seen
    · simp only [seenAfterL, hm, if_pos]
      exact ih seen x hx
    · simp only [seenAfterL, hm, if_neg]
      exact ih _ x (by simp [hx])

lemma mem_seenAfterL (md5 : Option (List Nat) → Nat) :
    ∀ (es : List Entry) (seen : List Nat) (f : Entry),
      f ∈ es → md5 f.pixels ∈ seenAfterL md5 seen es := by
  intro es
  induction es with
  | nil => intro seen f hf; simp at hf
  | cons e rest ih =>
    intro seen f hf
    by_cases hm : md5 e.pixels ∈ seen
    · simp only [seenAfterL, hm, if_pos]
      rcases List.mem_cons.mp hf with rfl | hf
      · exact seenAfterL_mono md5 rest seen _ hm
      · exact ih seen f hf
    · simp only [seenAfterL, hm, if_neg]
      rcases List.mem_cons.mp hf with rfl | hf
      · exact seenAfterL_mono md5 rest _ _ (by simp)
      · exact ih _ f hf

lemma scanEntries_hk_mem (md5 : Option (List Nat) → Nat) :
    ∀ (es : List Entry) (i₀ : Nat) (hk : List (Nat × Nat)) (d : List (Nat × List Char))
      (h i : Nat),
      (h, i) ∈ (scanEntries md5 es i₀ hk d).1 →
      (h, i) ∈ hk ∨ ∃ a e b, es = a ++ e :: b ∧ e.isFile = true ∧ md5 e.pixels = h ∧
        i = i₀ + a.length ∧ h ∉ hk.map Prod.fst ∧
        ∀ f ∈ a, f.isFile = true → md5 f.pixels ≠ h := by
  intro es
  induction es with
  | nil =>
    intro i₀ hk d h i hmem
    exact Or.inl (by simpa [scanEntries] using hmem)
  | cons e rest ih =>
    intro i₀ hk d h i hmem
    by_cases he : e.isFile
    · cases hl : lookupIdx hk (md5 e.pixels) with
      | none =>
        rw [show scanEntries md5 (e :: rest) i₀ hk d
            = scanEntries md5 rest (i₀ + 1) (hk ++ [(md5 e.pixels, i₀)]) d by
          simp [scanEntries, he, hl]] at hmem
        have hnotin : md5 e.pixels ∉ hk.map Prod.fst := (lookupIdx_eq_none_iff hk _).mp hl
        rcases ih (i₀ + 1) _ d h i hmem with hin | ⟨a', e', b, hsplit, hef, hhash, hidx, hnk, hfresh⟩
        · rcases List.mem_append.mp hin with hin | hin
          · exact Or.inl hin
          · simp only [List.mem_singleton, Prod.mk.injEq] at hin
            refine Or.inr ⟨[], e, rest, by simp, by simp [he], hin.1.symm, by simp [hin.2], ?_, by simp⟩
            exact hin.1 ▸ hnotin
        · have hne : h ≠ md5 e.pixels := by
            intro hc
            exact hnk (by simp [hc])
          refine Or.inr ⟨e :: a', e', b, by simp [hsplit], hef, hhash, ?_, ?_, ?_⟩
          · simp [hidx]
            omega
          · intro hc
            exact hnk (by simp [hc])
          · intro f hf hff
            rcases List.mem_cons.mp hf with rfl | hf
            · exact fun hc => hne hc.symm
            · exact hfresh f hf hff
      | some si =>
        rw [show scanEntries md5 (e :: rest) i₀ hk d
            = scanEntries md5 rest (i₀ + 1) hk (d ++ [(i₀, natRepr si ++ sepCS ++ e.path)]) by
          simp [scanEntries, he, hl]] at hmem
        have hin' : md5 e.pixels ∈ hk.map Prod.fst := by
          by_contra hc
          rw [(lookupIdx_eq_none_iff hk _).mpr hc] at hl
          exact Option.noConfusion hl
        rcases ih (i₀ + 1) hk _ h i hmem with hin | ⟨a', e', b, hsplit, hef, hhash, hidx, hnk, hfresh⟩
        · exact Or.inl hin
        · refine Or.inr ⟨e :: a', e', b, by simp [hsplit], hef, hhash, ?_, hnk, ?_⟩
          · simp [hidx]
            omega
          · intro f hf hff
            rcases List.mem_cons.mp hf with rfl | hf
            · intro hc
              exact hnk (hc ▸ hin')
            · exact hfresh f hf hff
    · rw [show scanEntries md5 (e :: rest) i₀ hk d = scanEntries md5 rest (i₀ + 1) hk d by
        simp [scanEntries, he]] at hmem
      rcases ih (i₀ + 1) hk d h i hmem with hin | ⟨a', e', b, hsplit, hef, hhash, hidx, hnk, hfresh⟩
      · exact Or.inl hin
      · refine Or.inr ⟨e :: a', e', b, by simp [hsplit], hef, hhash, ?_, hnk, ?_⟩
        · simp [hidx]
          omega
        · intro f hf hff
          rcases List.mem_cons.mp hf with rfl | hf
          · exact absurd hff (by simpa using he)
          · exact hfresh f hf hff

lemma scanFolders_hk_mem (md5 : Option (List Nat) → Nat) :
    ∀ (ds : FS) (hk : List (Nat × Nat)) (d : List (Nat × List Char)) (h i : Nat),
      (h, i) ∈ (scanFolders md5 ds hk d).1 →
      (h, i) ∈ hk ∨ ∃ ds₁ dir ds₂ a e b, ds = ds₁ ++ dir :: ds₂ ∧
        globStar dir = a ++ e :: b ∧ e.isFile = true ∧ md5 e.pixels = h ∧ i = a.length ∧
        h ∉ hk.map Prod.fst ∧ (∀ f ∈ filesOf ds₁, md5 f.pixels ≠ h) ∧
        ∀ f ∈ a, f.isFile = true → md5 f.pixels ≠ h := by
  intro ds
  induction ds with
  | nil =>
    intro hk d h i hmem
    exact Or.inl (by simpa [scanFolders] using hmem)
  | cons dir ds ih =>
    intro hk d h i hmem
    obtain ⟨Δh₁, Δd₁, heq₁, _, hkeys₁⟩ := scanEntries_bridge md5 (globStar dir) 0 hk d
    rw [show scanFolders md5 (dir :: ds) hk d
        = scanFolders md5 ds (scanEntries md5 (globStar dir) 0 hk d).1
            (scanEntries md5 (globStar dir) 0 hk d).2 from rfl] at hmem
    rcases ih _ _ h i hmem with hin |
      ⟨ds₁', dir', ds₂, a, e, b, hdsplit, hgsplit, hef, hhash, hidx, hnk, hds₁, hfresh⟩
    · rcases scanEntries_hk_mem md5 (globStar dir) 0 hk d h i hin with
        hin' | ⟨a, e, b, hsplit, hef, hhash, hidx, hnk, hfresh⟩
      · exact Or.inl hin'
      · exact Or.inr ⟨[], dir, ds, a, e, b, by simp, hsplit, hef, hhash, by simpa using hidx,
          hnk, by simp [filesOf, entriesOf], hfresh⟩
    · have hkeysub : ∀ x, x ∈ hk.map Prod.fst → x ∈ (scanEntries md5 (globStar dir) 0 hk d).1.map Prod.fst := by
        intro x hx
        rw [heq₁]
        simp only [List.map_append, List.mem_append]
        exact Or.inl hx
      refine Or.inr ⟨dir :: ds₁', dir', ds₂, a, e, b, by simp [hdsplit], hgsplit, hef, hhash,
        hidx, ?_, ?_, hfresh⟩
      · exact fun hc => hnk (hkeysub h hc)
      · intro f hf
        rw [filesOf_cons] at hf
        rcases List.mem_append.mp hf with hf | hf
        · intro hc
          apply hnk
          have : md5 f.pixels ∈ (scanEntries md5 (globStar dir) 0 hk d).1.map Prod.fst := by
            rw [heq₁]
            show md5 f.pixels ∈ (hk ++ Δh₁).map Prod.fst
            rw [hkeys₁ (md5 f.pixels)]
            exact mem_seenAfterL md5 _ _ f hf
          exact hc ▸ this
        · exact hds₁ f hf

/-! ### Further helper lemmas for the claims -/

lemma marked_dupe_of_eq_hash (md5 : Option (List Nat) → Nat) (fs : FS)
    (pre mid post : List Entry) (e1 e2 : Entry)
    (hsplit : filesOf fs = pre ++ e1 :: mid ++ e2 :: post)
    (hh : md5 e1.pixels = md5 e2.pixels) :
    ∃ rec ∈ (scanFolders md5 fs [] []).2, dupeRecMatches rec e2 := by
  obtain ⟨Δh, Δd, heq, hforall, _⟩ := scanFolders_bridge md5 fs [] []
  have hforall' : List.Forall₂ dupeRecMatches Δd (dupeList md5 [] (filesOf fs)) := by
    simpa using hforall
  have hmem : e2 ∈ dupeList md5 [] (filesOf fs) := by
    rw [hsplit]
    rw [show pre ++ e1 :: mid ++ e2 :: post = (pre ++ e1 :: mid) ++ e2 :: post by simp]
    exact mem_dupeList_of_earlier md5 (pre ++ e1 :: mid) e2 post []
      (Or.inl ⟨e1, by simp, hh⟩)
  obtain ⟨rec, hrec, hR⟩ := forall₂_mem_right hforall' hmem
  refine ⟨rec, ?_, hR⟩
  rw [heq]
  simpa using hrec

lemma scanFolders_glob_congr (md5 : Option (List Nat) → Nat) :
    ∀ (ds₁ ds₂ : FS) (hk : List (Nat × Nat)) (d : List (Nat × List Char)),
      ds₁.map globStar = ds₂.map globStar →
      scanFolders md5 ds₁ hk d = scanFolders md5 ds₂ hk d := by
  intro ds₁
  induction ds₁ with
  | nil =>
    intro ds₂ hk d hg
    have : ds₂ = [] := by simpa using (List.map_eq_nil_iff.mp hg.symm)
    rw [this]
  | cons d₁ ds₁' ih =>
    intro ds₂ hk d hg
    cases ds₂ with
    | nil => simp at hg
    | cons d₂ ds₂' =>
      simp only [List.map_cons, List.cons.injEq] at hg
      show scanFolders md5 ds₁' (scanEntries md5 (globStar d₁) 0 hk d).1
          (scanEntries md5 (globStar d₁) 0 hk d).2 = _
      rw [hg.1]
      exact ih ds₂' _ _ hg.2

lemma removeFS_glob_congr :
    ∀ (fs₁ fs₂ : FS) (p : List Char), fs₁.map globStar = fs₂.map globStar →
      (removeFS p fs₁).map (List.map globStar) = (removeFS p fs₂).map (List.map globStar) := by
  intro fs₁
  induction fs₁ with
  | nil =>
    intro fs₂ p hg
    have : fs₂ = [] := by simpa using (List.map_eq_nil_iff.mp hg.symm)
    rw [this]
  | cons d₁ ds₁ ih =>
    intro fs₂ p hg
    cases fs₂ with
    | nil => simp at hg
    | cons d₂ ds₂ =>
      simp only [List.map_cons, List.cons.injEq] at hg
      obtain ⟨hghead, hgtail⟩ := hg
      have htail := ih ds₂ p hgtail
      cases d₁ with
      | none =>
        cases d₂ with
        | none =>
          simp only [removeFS, Option.map_map]
          calc (removeFS p ds₁).map (List.map globStar ∘ (none :: ·))
              = ((removeFS p ds₁).map (List.map globStar)).map (globStar none :: ·) := by
                rw [Option.map_map]; rfl
            _ = ((removeFS p ds₂).map (List.map globStar)).map (globStar none :: ·) := by
                rw [htail]
            _ = (removeFS p ds₂).map (List.map globStar ∘ (none :: ·)) := by
                rw [Option.map_map]; rfl
        | some es₂ =>
          have hes₂ : es₂ = [] := by simpa [globStar] using hghead.symm
          subst hes₂
          simp only [removeFS, removeEntries, Option.map_map]
          calc (removeFS p ds₁).map (List.map globStar ∘ (none :: ·))
              = ((removeFS p ds₁).map (List.map globStar)).map (([] : List Entry) :: ·) := by
                rw [Option.map_map]; rfl
            _ = ((removeFS p ds₂).map (List.map globStar)).map (([] : List Entry) :: ·) := by
                rw [htail]
            _ = (removeFS p ds₂).map (List.map globStar ∘ (some [] :: ·)) := by
                rw [Option.map_map]; rfl
      | some es₁ =>
        cases d₂ with
        | none =>
          have hes₁ : es₁ = [] := by simpa [globStar] using hghead
          subst hes₁
          simp only [removeFS, removeEntries, Option.map_map]
          calc (removeFS p ds₁).map (List.map globStar ∘ (some [] :: ·))
              = ((removeFS p ds₁).map (List.map globStar)).map (([] : List Entry) :: ·) := by
                rw [Option.map_map]; rfl
            _ = ((removeFS p ds₂).map (List.map globStar)).map (([] : List Entry) :: ·) := by
                rw [htail]
            _ = (removeFS p ds₂).map (List.map globStar ∘ (none :: ·)) := by
                rw [Option.map_map]; rfl
        | some es₂ =>
          have hes : es₁ = es₂ := by simpa [globStar] using hghead
          subst hes
          simp only [removeFS]
          cases hre : removeEntries p es₁ with
          | some es' => simp [hgtail]
          | none =>
            simp only [Option.map_map]
            calc (removeFS p ds₁).map (List.map globStar ∘ (some es₁ :: ·))
                = ((removeFS p ds₁).map (List.map globStar)).map (es₁ :: ·) := by
                  rw [Option.map_map]; rfl
              _ = ((removeFS p ds₂).map (List.map globStar)).map (es₁ :: ·) := by
                  rw [htail]
              _ = (removeFS p ds₂).map (List.map globStar ∘ (some es₁ :: ·)) := by
                  rw [Option.map_map]; rfl

lemma deleteDupes_glob_congr (perm : List Char → Bool) :
    ∀ (recs : List (Nat × List Char)) (fs₁ fs₂ : FS),
      fs₁.map globStar = fs₂.map globStar →
      (deleteDupes perm fs₁ recs).1.map globStar = (deleteDupes perm fs₂ recs).1.map globStar ∧
      (deleteDupes perm fs₁ recs).2 = (deleteDupes perm fs₂ recs).2 := by
  intro recs
  induction recs with
  | nil => intro fs₁ fs₂ hg; exact ⟨hg, rfl⟩
  | cons r rest ih =>
    intro fs₁ fs₂ hg
    obtain ⟨k, s⟩ := r
    cases ht : recoverTarget s with
    | none =>
      have h1 : deleteDupes perm fs₁ ((k, s) :: rest) = (fs₁, some s) := by
        simp [deleteDupes, ht]
      have h2 : deleteDupes perm fs₂ ((k, s) :: rest) = (fs₂, some s) := by
        simp [deleteDupes, ht]
      rw [h1, h2]
      exact ⟨hg, rfl⟩
    | some p =>
      by_cases hperm : perm p = true
      · have hcong := removeFS_glob_congr fs₁ fs₂ p hg
        cases hr₁ : removeFS p fs₁ with
        | none =>
          cases hr₂ : removeFS p fs₂ with
          | none =>
            have h1 : deleteDupes perm fs₁ ((k, s) :: rest) = (fs₁, some p) := by
              simp [deleteDupes, ht, osRemove, hperm, hr₁]
            have h2 : deleteDupes perm fs₂ ((k, s) :: rest) = (fs₂, some p) := by
              simp [deleteDupes, ht, osRemove, hperm, hr₂]
            rw [h1, h2]
            exact ⟨hg, rfl⟩
          | some g₂ =>
            rw [hr₁, hr₂] at hcong
            simp at hcong
        | some g₁ =>
          cases hr₂ : removeFS p fs₂ with
          | none =>
            rw [hr₁, hr₂] at hcong
            simp at hcong
          | some g₂ =>
            rw [hr₁, hr₂] at hcong
            simp only [Option.map] at hcong
            have hgg : g₁.map globStar = g₂.map globStar := by
              simpa using hcong
            have := ih g₁ g₂ hgg
            simp only [deleteDupes, ht, osRemove, hperm, if_pos, hr₁, hr₂]
            exact this
      · have hperm' : perm p = false := Bool.eq_false_iff.mpr hperm
        have h1 : deleteDupes perm fs₁ ((k, s) :: rest) = (fs₁, some p) := by
          simp [deleteDupes, ht, osRemove, hperm']
        have h2 : deleteDupes perm fs₂ ((k, s) :: rest) = (fs₂, some p) := by
          simp [deleteDupes, ht, osRemove, hperm']
        rw [h1, h2]
        exact ⟨hg, rfl⟩

/-! ### The claims -/

/-- C1: the claim states that every file whose fingerprint was already seen
is permanently deleted, leaving exactly one survivor per fingerprint.  The
code violates this: the duplicate's path is only stored inside the display
string and recovered with `split(': ')[1]`, so a duplicate whose path
contains `": "` is never deleted -- the run aborts with an error naming the
truncated path and both same-fingerprint files survive.  This theorem
evaluates the run at such an input: one directory holding `n` and `y: z`
with identical pixels; the reported count is 1, the filesystem is left
unchanged (the duplicate `y: z` still present), and the failure names the
truncated path `y`. -/
theorem c1_duplicate_not_removed_on_colon_space_path :
    remove_duplicate_images hashModel allowAll
        [some [⟨['n'], true, some [3]⟩, ⟨['y', ':', ' ', 'z'], true, some [3]⟩]]
      = (1, [some [⟨['n'], true, some [3]⟩, ⟨['y', ':', ' ', 'z'], true, some [3]⟩]],
          some ['y']) := rfl

/-- C2 (counterexample): the claim states that a file that fails to decode
makes the run fail with a propagated error.  It does not: `cv2.imread`
returns None without raising and the notebook's recorded run shows the md5
call over the object-dtype wrapper succeeding, so an undecodable file is
fingerprinted (entered into the index under the hash of the null decode
result) and the run completes without error. -/
theorem c2_decode_failure_not_fatal_counterexample :
    remove_duplicate_images hashModel allowAll [some [⟨['b'], true, none⟩]]
      = (0, [some [⟨['b'], true, none⟩]], none) ∧
    (scanFolders hashModel [some [⟨['b'], true, none⟩]] [] []).1
      = [(hashModel none, 0)] :=
  ⟨rfl, rfl⟩

/-- C2 (amended): a file that fails to decode is not fatal and is not
skipped: it is fingerprinted via the hash of the null decode result like
any decoded file, so a later undecodable file scanned after an earlier one
carries the same fingerprint and is marked as its duplicate. -/
theorem c2_amended_undecodable_files_deduplicated (md5 : Option (List Nat) → Nat)
    (fs : FS) (pre mid post : List Entry) (e1 e2 : Entry)
    (hsplit : filesOf fs = pre ++ e1 :: mid ++ e2 :: post)
    (h1 : e1.pixels = none) (h2 : e2.pixels = none) :
    md5 e1.pixels = md5 e2.pixels ∧
    ∃ rec ∈ (scanFolders md5 fs [] []).2, dupeRecMatches rec e2 := by
  have hh : md5 e1.pixels = md5 e2.pixels := by rw [h1, h2]
  exact ⟨hh, marked_dupe_of_eq_hash md5 fs pre mid post e1 e2 hsplit hh⟩

theorem c2_amended_undecodable_files_deduplicated_witness :
    hashModel ((⟨['b'], true, none⟩ : Entry)).pixels
        = hashModel ((⟨['c'], true, none⟩ : Entry)).pixels ∧
    ∃ rec ∈ (scanFolders hashModel [some [⟨['b'], true, none⟩, ⟨['c'], true, none⟩]] [] []).2,
      dupeRecMatches rec ⟨['c'], true, none⟩ :=
  c2_amended_undecodable_files_deduplicated hashModel
    [some [⟨['b'], true, none⟩, ⟨['c'], true, none⟩]]
    [] [] [] ⟨['b'], true, none⟩ ⟨['c'], true, none⟩ rfl rfl rfl

/-- C3 (counterexample): the claim states that a missing category directory
makes the run fail with an error.  It does not: `Path.glob` on a missing
directory silently yields nothing, so the run below, whose first category
directory is missing, completes with no error and duplicate count 0. -/
theorem c3_missing_directory_no_error_counterexample :
    remove_duplicate_images hashModel allowAll [none, some [⟨['y'], true, some [5]⟩]]
      = (0, [none, some [⟨['y'], true, some [5]⟩]], none) := rfl

/-- C3 (amended): a missing category directory is not an error: it behaves
exactly like an empty directory -- the reported count, the error outcome and
the surviving directory entries of the run are identical whether the
directory slot is missing or present but empty. -/
theorem c3_amended_missing_directory_scanned_as_empty (md5 : Option (List Nat) → Nat)
    (perm : List Char → Bool) (pre post : FS) :
    (remove_duplicate_images md5 perm (pre ++ none :: post)).1
      = (remove_duplicate_images md5 perm (pre ++ some [] :: post)).1 ∧
    (remove_duplicate_images md5 perm (pre ++ none :: post)).2.2
      = (remove_duplicate_images md5 perm (pre ++ some [] :: post)).2.2 ∧
    entriesOf (remove_duplicate_images md5 perm (pre ++ none :: post)).2.1
      = entriesOf (remove_duplicate_images md5 perm (pre ++ some [] :: post)).2.1 := by
  have hg : (pre ++ none :: post).map globStar = (pre ++ some [] :: post).map globStar := by
    simp [globStar]
  have hscan := scanFolders_glob_congr md5 (pre ++ none :: post) (pre ++ some [] :: post)
    ([] : List (Nat × Nat)) ([] : List (Nat × List Char)) hg
  have hdel := deleteDupes_glob_congr perm ((scanFolders md5 (pre ++ none :: post) [] []).2)
    (pre ++ none :: post) (pre ++ some [] :: post) hg
  refine ⟨?_, ?_, ?_⟩
  · simp only [remove_duplicate_images, hscan]
  · simp only [remove_duplicate_images, hscan]
    rw [hscan] at hdel
    exact hdel.2
  · simp only [remove_duplicate_images, hscan]
    rw [hscan] at hdel
    show ((deleteDupes perm (pre ++ none :: post) _).1.map globStar).flatten = _
    rw [hdel.1]
    rfl

/-- C4 (counterexample): the claim states that a second run on the output
of a first run reports zero duplicates and deletes nothing.  It can fail:
with files `a`, `f`, `a: b` (the last two pixel-identical), the first run
recovers the truncated path `a` from the dupe record of `a: b` and deletes
the unrelated file `a`, completing without error; the second run on that
output then reports one duplicate (not zero) and aborts trying to delete
the by now missing `a` again. -/
theorem c4_not_idempotent_counterexample :
    remove_duplicate_images hashModel allowAll
        [some [⟨['a'], true, some [1]⟩, ⟨['f'], true, some [2]⟩,
          ⟨['a', ':', ' ', 'b'], true, some [2]⟩]]
      = (1, [some [⟨['f'], true, some [2]⟩, ⟨['a', ':', ' ', 'b'], true, some [2]⟩]], none) ∧
    remove_duplicate_images hashModel allowAll
        [some [⟨['f'], true, some [2]⟩, ⟨['a', ':', ' ', 'b'], true, some [2]⟩]]
      = (1, [some [⟨['f'], true, some [2]⟩, ⟨['a', ':', ' ', 'b'], true, some [2]⟩]],
          some ['a']) :=
  ⟨rfl, rfl⟩

/-- C4 (amended): on a wellformed tree (distinct paths) none of whose
file paths contains the substring `": "`, the first run completes without
error and a second run on its output reports zero duplicates, deletes no
file and leaves the filesystem unchanged. -/
theorem c4_amended_idempotent_without_colon_space (md5 : Option (List Nat) → Nat)
    (fs : FS) (hnd : ((entriesOf fs).map Entry.path).Nodup)
    (hns : ∀ e ∈ filesOf fs, hasCS e.path = false) :
    ∃ fs' n, remove_duplicate_images md5 allowAll fs = (n, fs', none) ∧
      remove_duplicate_images md5 allowAll fs' = (0, fs', none) := by
  obtain ⟨fs', hrun, _, hfiles⟩ := run_ok md5 fs hnd hns
  refine ⟨fs', _, hrun, ?_⟩
  have hpair := (keepFirsts_fresh_pairwise md5 (filesOf fs) []).1
  have hnil : dupeList md5 [] (filesOf fs') = [] := by
    rw [hfiles]
    exact dupeList_eq_nil md5 _ [] hpair (by simp)
  obtain ⟨Δh, Δd, heq, hforall, _⟩ := scanFolders_bridge md5 fs' [] []
  have hΔd : Δd = [] := by
    have hlen := hforall.length_eq
    rw [show dupeList md5 (([] : List (Nat × Nat)).map Prod.fst) (filesOf fs')
        = dupeList md5 [] (filesOf fs') by rfl, hnil] at hlen
    exact List.length_eq_zero.mp (by simpa using hlen)
  have hscan : (scanFolders md5 fs' [] []).2 = ([] : List (Nat × List Char)) := by
    rw [heq, hΔd]
    simp
  simp only [remove_duplicate_images, hscan]
  rfl

/-- C5 (counterexample): the claim states that when two category
directories each hold one file with the same pixel content, exactly one of
the two files survives and the count is 1.  When the second file's path
contains `": "` the count 1 is still printed but the deletion aborts on the
truncated path, so both files survive. -/
theorem c5_cross_category_counterexample :
    remove_duplicate_images hashModel allowAll
        [some [⟨['n'], true, some [7]⟩], some [⟨['y', ':', ' ', 'z'], true, some [7]⟩]]
      = (1, [some [⟨['n'], true, some [7]⟩], some [⟨['y', ':', ' ', 'z'], true, some [7]⟩]],
          some ['y']) := rfl

/-- C5 (amended): the fingerprint index is shared across category
directories.  For two directories holding one file each with the same
decoded pixel content, provided the second file's path contains no `": "`,
one pass keeps the file of the first-scanned directory, deletes the other,
reports duplicate count 1 and raises no error. -/
theorem c5_amended_cross_category_collapse (md5 : Option (List Nat) → Nat)
    (p : List Nat) (e1 e2 : Entry)
    (h1f : e1.isFile = true) (h2f : e2.isFile = true)
    (h1 : e1.pixels = some p) (h2 : e2.pixels = some p)
    (hne : e1.path ≠ e2.path) (hns : hasCS e2.path = false) :
    remove_duplicate_images md5 allowAll [some [e1], some [e2]]
      = (1, [some [e1], some []], none) := by
  have hhash : md5 e1.pixels = md5 e2.pixels := by rw [h1, h2]
  have hscan : scanFolders md5 [some [e1], some [e2]] [] []
      = ([(md5 e2.pixels, 0)], [(0, natRepr 0 ++ sepCS ++ e2.path)]) := by
    simp [scanFolders, scanEntries, globStar, lookupIdx, h1f, h2f, hhash]
  have hrec : recoverTarget (natRepr 0 ++ sepCS ++ e2.path) = some e2.path :=
    (recoverTarget_display 0 e2.path).1 hns
  have hrm : removeFS e2.path [some [e1], some [e2]] = some [some [e1], some []] := by
    simp [removeFS, removeEntries, hne, h2f]
  have hstep : deleteDupes allowAll [some [e1], some [e2]]
      [(0, natRepr 0 ++ sepCS ++ e2.path)] = ([some [e1], some []], none) := by
    simp only [deleteDupes]
    rw [hrec]
    simp [osRemove, allowAll, hrm]
  have hfinal : remove_duplicate_images md5 allowAll [some [e1], some [e2]]
      = ((scanFolders md5 [some [e1], some [e2]] [] []).2.length,
        deleteDupes allowAll [some [e1], some [e2]]
          (scanFolders md5 [some [e1], some [e2]] [] []).2) := rfl
  rw [hfinal, hscan]
  show (1, deleteDupes allowAll [some [e1], some [e2]] [(0, natRepr 0 ++ sepCS ++ e2.path)])
      = (1, [some [e1], some []], none)
  rw [hstep]

theorem c5_amended_cross_category_collapse_witness :
    remove_duplicate_images hashModel allowAll
        [some [⟨['n'], true, some [3]⟩], some [⟨['y'], true, some [3]⟩]]
      = (1, [some [⟨['n'], true, some [3]⟩], some []], none) :=
  c5_amended_cross_category_collapse hashModel [3]
    ⟨['n'], true, some [3]⟩ ⟨['y'], true, some [3]⟩
    rfl rfl rfl rfl (by decide) (by decide)

theorem c4_amended_idempotent_without_colon_space_witness :
    ∃ fs' n, remove_duplicate_images hashModel allowAll
        [some [⟨['a'], true, some [1]⟩, ⟨['b'], true, some [1]⟩]] = (n, fs', none) ∧
      remove_duplicate_images hashModel allowAll fs' = (0, fs', none) :=
  c4_amended_idempotent_without_colon_space hashModel
    [some [⟨['a'], true, some [1]⟩, ⟨['b'], true, some [1]⟩]]
    (by decide) (by decide)

/-- C6 (counterexample): the claim states that the fingerprint index maps
each fingerprint to the first-seen image path.  It does not: the code
stores the `enumerate` index as the value (`hash_keys[file_hash] = i`), not
the path.  After scanning one file `n`, the code's index holds the pair
(fingerprint, 0) whereas the index described by the spec (here
`specIndex`, modelled from the spec's words) holds (fingerprint, `n`); and
even rendered in decimal as the dupe records do, the stored value `0`
differs from the path `n`. -/
theorem c6_index_value_is_scan_index_not_path :
    (scanFolders hashModel [some [⟨['n'], true, some [5]⟩]] [] []).1
      = [(hashModel (some [5]), 0)] ∧
    specIndex hashModel [] (filesOf [some [⟨['n'], true, some [5]⟩]])
      = [(hashModel (some [5]), ['n'])] ∧
    natRepr 0 ≠ ['n'] :=
  ⟨rfl, rfl, by decide⟩

/-- C6 (amended): within a run the fingerprint index starts empty and is
append-only -- existing pairs are never overwritten or removed; its keys are
pairwise distinct; its value for a fingerprint is the `enumerate` index
(within that fingerprint's category folder, counting non-file entries) of
the first file carrying the fingerprint, not the file's path; and, provided
the tree is wellformed and no file path contains `": "`, the run completes
without error with at most one surviving file per fingerprint. -/
theorem c6_amended_index_invariants (md5 : Option (List Nat) → Nat) (fs : FS)
    (hnd : ((entriesOf fs).map Entry.path).Nodup)
    (hns : ∀ e ∈ filesOf fs, hasCS e.path = false) :
    (∀ hk₀ d₀, ∃ Δ, (scanFolders md5 fs hk₀ d₀).1 = hk₀ ++ Δ) ∧
    ((scanFolders md5 fs [] []).1.map Prod.fst).Nodup ∧
    (∀ h i, (h, i) ∈ (scanFolders md5 fs [] []).1 →
      ∃ ds₁ dir ds₂ a e b, fs = ds₁ ++ dir :: ds₂ ∧ globStar dir = a ++ e :: b ∧
        e.isFile = true ∧ md5 e.pixels = h ∧ i = a.length ∧
        (∀ f ∈ filesOf ds₁, md5 f.pixels ≠ h) ∧
        (∀ f ∈ a, f.isFile = true → md5 f.pixels ≠ h)) ∧
    (∃ fs' n, remove_duplicate_images md5 allowAll fs = (n, fs', none) ∧
      (filesOf fs').Pairwise (fun a b => md5 a.pixels ≠ md5 b.pixels)) := by
  refine ⟨?_, ?_, ?_, ?_⟩
  · intro hk₀ d₀
    obtain ⟨Δh, Δd, heq, _, _⟩ := scanFolders_bridge md5 fs hk₀ d₀
    exact ⟨Δh, by rw [heq]⟩
  · exact scanFolders_keys_nodup md5 fs [] [] (by simp)
  · intro h i hmem
    rcases scanFolders_hk_mem md5 fs [] [] h i hmem with hin |
      ⟨ds₁, dir, ds₂, a, e, b, hds, hglob, hef, hhash, hidx, _, hds₁, hfresh⟩
    · simp at hin
    · exact ⟨ds₁, dir, ds₂, a, e, b, hds, hglob, hef, hhash, hidx, hds₁, hfresh⟩
  · obtain ⟨fs', hrun, _, hfiles⟩ := run_ok md5 fs hnd hns
    refine ⟨fs', _, hrun, ?_⟩
    rw [hfiles]
    exact (keepFirsts_fresh_pairwise md5 (filesOf fs) []).1

theorem c6_amended_index_invariants_witness :
    (∀ hk₀ d₀, ∃ Δ, (scanFolders hashModel
        [some [⟨['a'], true, some [2]⟩, ⟨['b'], true, some [2]⟩]] hk₀ d₀).1 = hk₀ ++ Δ) ∧
    ((scanFolders hashModel
        [some [⟨['a'], true, some [2]⟩, ⟨['b'], true, some [2]⟩]] [] []).1.map Prod.fst).Nodup ∧
    (∀ h i, (h, i) ∈ (scanFolders hashModel
        [some [⟨['a'], true, some [2]⟩, ⟨['b'], true, some [2]⟩]] [] []).1 →
      ∃ ds₁ dir ds₂ a e b,
        [some [⟨['a'], true, some [2]⟩, ⟨['b'], true, some [2]⟩]] = ds₁ ++ dir :: ds₂ ∧
        globStar dir = a ++ e :: b ∧
        e.isFile = true ∧ hashModel e.pixels = h ∧ i = a.length ∧
        (∀ f ∈ filesOf ds₁, hashModel f.pixels ≠ h) ∧
        (∀ f ∈ a, f.isFile = true → hashModel f.pixels ≠ h)) ∧
    (∃ fs' n, remove_duplicate_images hashModel allowAll
        [some [⟨['a'], true, some [2]⟩, ⟨['b'], true, some [2]⟩]] = (n, fs', none) ∧
      (filesOf fs').Pairwise (fun a b => hashModel a.pixels ≠ hashModel b.pixels)) :=
  c6_amended_index_invariants hashModel
    [some [⟨['a'], true, some [2]⟩, ⟨['b'], true, some [2]⟩]]
    (by decide) (by decide)

/-- C7: the fingerprint is computed from the decoded pixel representation
only: for any two files in scan order whose decoded pixel buffers are the
same, the fingerprints agree -- whatever their paths or raw bytes, which the
hash never sees -- and the later file is marked as a duplicate (a dupe
record carrying its path is appended during the scan). -/
theorem c7_fingerprint_function_of_pixels (md5 : Option (List Nat) → Nat)
    (fs : FS) (pre mid post : List Entry) (e1 e2 : Entry) (p : List Nat)
    (hsplit : filesOf fs = pre ++ e1 :: mid ++ e2 :: post)
    (h1 : e1.pixels = some p) (h2 : e2.pixels = some p) :
    md5 e1.pixels = md5 e2.pixels ∧
    ∃ rec ∈ (scanFolders md5 fs [] []).2, dupeRecMatches rec e2 := by
  have hh : md5 e1.pixels = md5 e2.pixels := by rw [h1, h2]
  exact ⟨hh, marked_dupe_of_eq_hash md5 fs pre mid post e1 e2 hsplit hh⟩

theorem c7_fingerprint_function_of_pixels_witness :
    hashModel ((⟨['n'], true, some [9]⟩ : Entry)).pixels
        = hashModel ((⟨['y'], true, some [9]⟩ : Entry)).pixels ∧
    ∃ rec ∈ (scanFolders hashModel
        [some [⟨['n'], true, some [9]⟩], some [⟨['y'], true, some [9]⟩]] [] []).2,
      dupeRecMatches rec ⟨['y'], true, some [9]⟩ :=
  c7_fingerprint_function_of_pixels hashModel
    [some [⟨['n'], true, some [9]⟩], some [⟨['y'], true, some [9]⟩]]
    [] [] [] ⟨['n'], true, some [9]⟩ ⟨['y'], true, some [9]⟩ [9] rfl rfl rfl

/-- C8: when the scanned files decode to pairwise distinct pixel buffers
and their fingerprints do not collide, no file is marked as a duplicate:
the run reports count 0, deletes nothing (the filesystem is returned
unchanged) and raises no error, under any permission environment. -/
theorem c8_all_distinct_all_survive (md5 : Option (List Nat) → Nat)
    (perm : List Char → Bool) (fs : FS)
    (hdec : ∀ e ∈ filesOf fs, e.pixels.isSome)
    (hpix : (filesOf fs).Pairwise (fun a b => a.pixels ≠ b.pixels))
    (hhash : (filesOf fs).Pairwise (fun a b => md5 a.pixels ≠ md5 b.pixels)) :
    remove_duplicate_images md5 perm fs = (0, fs, none) := by
  have hnil : dupeList md5 [] (filesOf fs) = [] :=
    dupeList_eq_nil md5 (filesOf fs) [] hhash (by simp)
  obtain ⟨Δh, Δd, heq, hforall, _⟩ := scanFolders_bridge md5 fs [] []
  have hΔd : Δd = [] := by
    have hlen := hforall.length_eq
    rw [show dupeList md5 (([] : List (Nat × Nat)).map Prod.fst) (filesOf fs)
        = dupeList md5 [] (filesOf fs) by rfl, hnil] at hlen
    exact List.length_eq_zero.mp (by simpa using hlen)
  have hscan : (scanFolders md5 fs [] []).2 = ([] : List (Nat × List Char)) := by
    rw [heq, hΔd]
    simp
  simp only [remove_duplicate_images, hscan]
  rfl

theorem c8_all_distinct_all_survive_witness :
    remove_duplicate_images hashModel allowAll
        [some [⟨['a'], true, some [1]⟩], some [⟨['b'], true, some [2]⟩]]
      = (0, [some [⟨['a'], true, some [1]⟩], some [⟨['b'], true, some [2]⟩]], none) :=
  c8_all_distinct_all_survive hashModel allowAll
    [some [⟨['a'], true, some [1]⟩], some [⟨['b'], true, some [2]⟩]]
    (by decide) (by decide) (by decide)

/-- C9: if deleting a file marked as a duplicate fails -- its recovered path
is missing or the permission predicate denies it -- the run surfaces the
failure: when every earlier deletion succeeded and `os.remove` fails on the
record's recovered path, the run result carries exactly that offending path
as its error (the deletion phase stops there; the failure is never
swallowed into a successful result). -/
theorem c9_delete_failure_names_offending_path (md5 : Option (List Nat) → Nat)
    (perm : List Char → Bool) (fs fs₁ : FS) (pre rest : List (Nat × List Char))
    (k : Nat) (s p : List Char)
    (hscan : (scanFolders md5 fs [] []).2 = pre ++ (k, s) :: rest)
    (hpre : deleteDupes perm fs pre = (fs₁, none))
    (hrec : recoverTarget s = some p)
    (hfail : osRemove perm fs₁ p = none) :
    remove_duplicate_images md5 perm fs
      = ((pre ++ (k, s) :: rest).length, fs₁, some p) := by
  simp only [remove_duplicate_images, hscan]
  rw [deleteDupes_append perm pre ((k, s) :: rest) fs]
  rw [hpre]
  simp only [deleteDupes, hrec, hfail]

theorem c9_delete_failure_names_offending_path_witness :
    remove_duplicate_images hashModel (fun q => !(decide (q = ['b'])))
        [some [⟨['a'], true, some [4]⟩, ⟨['b'], true, some [4]⟩]]
      = (1, [some [⟨['a'], true, some [4]⟩, ⟨['b'], true, some [4]⟩]], some ['b']) :=
  c9_delete_failure_names_offending_path hashModel (fun q => !(decide (q = ['b'])))
    [some [⟨['a'], true, some [4]⟩, ⟨['b'], true, some [4]⟩]]
    [some [⟨['a'], true, some [4]⟩, ⟨['b'], true, some [4]⟩]]
    [] [] 1 (natRepr 0 ++ sepCS ++ ['b']) ['b']
    rfl rfl rfl rfl

/-- C10: a duplicate's path lives only inside the display string
`str(first-seen index) ++ ": " ++ path`, and deletion recovers it as
`split(': ')[1]`.  When the path contains no `": "` the recovered path is
exactly the duplicate's path; when it does contain `": "` the recovered
path is the strict truncation of the path at its first `": "` occurrence,
so deletion targets a different path than the duplicate's. -/
theorem c10_split_recovery_truncates (si : Nat) (path : List Char) :
    (hasCS path = false → recoverTarget (natRepr si ++ sepCS ++ path) = some path) ∧
    (hasCS path = true → ∃ r t, recoverTarget (natRepr si ++ sepCS ++ path) = some r ∧
        path = r ++ ':' :: ' ' :: t ∧ r ≠ path) :=
  recoverTarget_display si path

theorem c10_split_recovery_truncates_witness :
    recoverTarget (natRepr 3 ++ sepCS ++ ['a', 'b']) = some ['a', 'b'] ∧
    ∃ r t, recoverTarget (natRepr 0 ++ sepCS ++ ['y', ':', ' ', 'z']) = some r ∧
      ['y', ':', ' ', 'z'] = r ++ ':' :: ' ' :: t ∧ r ≠ ['y', ':', ' ', 'z'] :=
  ⟨(c10_split_recovery_truncates 3 ['a', 'b']).1 (by decide),
   (c10_split_recovery_truncates 0 ['y', ':', ' ', 'z']).2 (by decide)⟩
